import Mathlib

/-!
Verification of the NeuralForceField neighbor-list / batching / Tully
surface-hopping subsystems against their specification.

The Python sources are shallowly embedded: numpy arrays become lists,
floats become rationals (`ℚ`), complex numbers become pairs of rationals,
and code paths that raise Python exceptions become `Except String`
computations.  Every definition is translated from the repository source
(file and function named in its doc comment); the few definitions written
from the specification text instead are explicitly marked as modelled
from the spec.
-/

namespace NFF

/-- Rational complex numbers: the electronic coefficients `c` in
`nff/md/tully/step.py` are complex arrays; we embed them with exact
rational real and imaginary parts so that all evaluations are decidable. -/
structure Cx where
  re : ℚ
  im : ℚ
deriving DecidableEq, Repr

instance : Zero Cx := ⟨⟨0, 0⟩⟩

instance : Add Cx := ⟨fun a b => ⟨a.re + b.re, a.im + b.im⟩⟩

instance : Neg Cx := ⟨fun a => ⟨-a.re, -a.im⟩⟩

instance : Mul Cx := ⟨fun a b => ⟨a.re * b.re - a.im * b.im,
                                  a.re * b.im + a.im * b.re⟩⟩

/-- Complex conjugate, embedding `np.conj`. -/
def Cx.conj (a : Cx) : Cx := ⟨a.re, -a.im⟩

/-- Multiplication of a complex entry by a rational scalar. -/
def Cx.smul (q : ℚ) (a : Cx) : Cx := ⟨q * a.re, q * a.im⟩

/-- Squared modulus of a complex entry. -/
def Cx.normSq (a : Cx) : ℚ := a.re * a.re + a.im * a.im

/-- The imaginary unit (the `1j` of the Python source). -/
def Cx.unitIm : Cx := ⟨0, 1⟩

/-- A Cartesian 3-vector of rationals. -/
def Vec3 : Type := ℚ × ℚ × ℚ

instance : DecidableEq Vec3 := inferInstanceAs (DecidableEq (ℚ × ℚ × ℚ))

instance : Inhabited Vec3 := ⟨((0 : ℚ), (0 : ℚ), (0 : ℚ))⟩

/-- Dot product of two 3-vectors. -/
def dot3 (u v : Vec3) : ℚ := u.1 * v.1 + u.2.1 * v.2.1 + u.2.2 * v.2.2

/-- Elementwise sum of complex rows. -/
def rowAdd (a b : List Cx) : List Cx := List.zipWith (· + ·) a b

/-- Scalar multiple of a complex row. -/
def rowSmul (q : ℚ) (a : List Cx) : List Cx := a.map (Cx.smul q)

/-- Elementwise sum of sample-by-state complex matrices. -/
def matAdd (a b : List (List Cx)) : List (List Cx) := List.zipWith rowAdd a b

/-- Scalar multiple of a sample-by-state complex matrix. -/
def matSmul (q : ℚ) (a : List (List Cx)) : List (List Cx) := a.map (rowSmul q)

/-- Sum of a list of complex entries. -/
def cxSum (l : List Cx) : Cx := l.foldr (· + ·) 0

/-!
## Embedding of `nff/md/tully/step.py`

All arrays keep the shapes documented in the source:
`c` is num_samples x num_states, `vel` is num_samples x num_atoms (of
3-vectors), `nacv` is num_samples x num_states x num_states x num_atoms
(of 3-vectors), `energy` is num_samples x num_states.
-/

/-- Embedding of `compute_T` (step.py).  `T[n][i][j]` is the sum over atoms
and Cartesian components of `vel[n] * nacv[n][i][j]`.  The source line
`T[np.isnan(T)] = 0` zeroes NaN entries; rational inputs carry no NaN, so
it is the identity on this embedding and is noted here for fidelity. -/
def compute_T_mat (nacv : List (List (List (List Vec3))))
    (vel : List (List Vec3)) : List (List (List ℚ)) :=
  List.zipWith
    (fun velN nacvN =>
      nacvN.map (fun row =>
        row.map (fun dij => (List.zipWith dot3 velN dij).foldr (· + ·) 0)))
    vel nacv

/-- Embedding of the `np.einsum` coupling contraction in `compute_T`:
`coupling[n][i] = sum_j T[n][i][j] * c[n][j]`. -/
def compute_T_coupling (T : List (List (List ℚ)))
    (c : List (List Cx)) : List (List Cx) :=
  List.zipWith
    (fun Tn cn =>
      Tn.map (fun Ti => cxSum (List.zipWith (fun t cj => Cx.smul t cj) Ti cn)))
    T c

/-- Embedding of `get_dc_dt` (step.py): `dc_dt = -(1j * w * c + coupling)`
with `w = energy / hbar`; returns the pair `(dc_dt, T)` as the source
does. -/
def get_dc_dt (c : List (List Cx)) (vel : List (List Vec3))
    (nacv : List (List (List (List Vec3)))) (energy : List (List ℚ))
    (hbar : ℚ) : List (List Cx) × List (List (List ℚ)) :=
  let T := compute_T_mat nacv vel
  let coupling := compute_T_coupling T c
  (List.zipWith
    (fun (wn_cn : List ℚ × List Cx) couplingN =>
      List.zipWith
        (fun (w_c : ℚ × Cx) coup =>
          -(Cx.smul (w_c.1 / hbar) (Cx.unitIm * w_c.2) + coup))
        (List.zip wn_cn.1 wn_cn.2) couplingN)
    (List.zip energy c) coupling, T)

/-- Embedding of `runge_c` (step.py).  Note the final combination line of
the source, `new_c = c + 1 / 6 * (k1 + 2 * k2 + 2 * k3 + k4)`, which does
NOT multiply the bracket by `elec_dt` (the intermediate stages do use
`elec_dt`). -/
def runge_c (c : List (List Cx)) (vel : List (List Vec3))
    (nacv : List (List (List (List Vec3)))) (energy : List (List ℚ))
    (elec_dt : ℚ) (hbar : ℚ) : List (List Cx) × List (List (List ℚ)) :=
  let deriv := fun c0 => get_dc_dt c0 vel nacv energy hbar
  let k1T := deriv c
  let k1 := k1T.1
  let k2 := (deriv (matAdd c (matSmul (elec_dt / 2) k1))).1
  let k3 := (deriv (matAdd c (matSmul (elec_dt / 2) k2))).1
  let k4 := (deriv (matAdd c (matSmul elec_dt k3))).1
  (matAdd c (matSmul (1 / 6)
    (matAdd k1 (matAdd (matSmul 2 k2) (matAdd (matSmul 2 k3) k4)))), k1T.2)

/-- Modelled from the spec: the standard 4th-order Runge-Kutta update of
step size `elec_dt`, `new_c = c + (elec_dt/6)*(k1 + 2*k2 + 2*k3 + k4)`,
with the stages `k1..k4` exactly as in `runge_c`.  This is the reference
the code is compared against for claim C1. -/
def rk4_spec_update (c : List (List Cx)) (vel : List (List Vec3))
    (nacv : List (List (List (List Vec3)))) (energy : List (List ℚ))
    (elec_dt : ℚ) (hbar : ℚ) : List (List Cx) :=
  let deriv := fun c0 => (get_dc_dt c0 vel nacv energy hbar).1
  let k1 := deriv c
  let k2 := deriv (matAdd c (matSmul (elec_dt / 2) k1))
  let k3 := deriv (matAdd c (matSmul (elec_dt / 2) k2))
  let k4 := deriv (matAdd c (matSmul elec_dt k3))
  matAdd c (matSmul (elec_dt / 6)
    (matAdd k1 (matAdd (matSmul 2 k2) (matAdd (matSmul 2 k3) k4))))

/-- Total squared norm `sum over i of abs (c_i) ^ 2` of the first sample of
a coefficient matrix. -/
def normSqFirst (c : List (List Cx)) : ℚ :=
  ((c.headD []).map Cx.normSq).foldr (· + ·) 0

/-- One-sample, one-state, zero-coupling input: `c = [[1]]`,
`energy = [[1]]`, one atom at rest, zero NACV. -/
def c1Input : List (List Cx) := [[⟨1, 0⟩]]

/-- Velocity for the C1 failing input: one sample, one atom, at rest. -/
def c1Vel : List (List Vec3) := [[((0 : ℚ), (0 : ℚ), (0 : ℚ))]]

/-- NACV for the C1 failing input: identically zero. -/
def c1Nacv : List (List (List (List Vec3))) :=
  [[[[((0 : ℚ), (0 : ℚ), (0 : ℚ))]]]]

/-- Energy for the C1 failing input. -/
def c1Energy : List (List ℚ) := [[1]]

/-- Unfolding lemma for complex addition. -/
theorem Cx.add_def (a b : Cx) : a + b = ⟨a.re + b.re, a.im + b.im⟩ := rfl

/-- Unfolding lemma for complex multiplication. -/
theorem Cx.mul_def (a b : Cx) :
    a * b = ⟨a.re * b.re - a.im * b.im, a.re * b.im + a.im * b.re⟩ := rfl

/-- Unfolding lemma for complex negation. -/
theorem Cx.neg_def (a : Cx) : -a = ⟨-a.re, -a.im⟩ := rfl

/-- Unfolding lemma for the complex zero. -/
theorem Cx.zero_def : (0 : Cx) = ⟨0, 0⟩ := rfl

/-- Real part of the complex zero. -/
theorem Cx.re_zero : (0 : Cx).re = 0 := rfl

/-- Imaginary part of the complex zero. -/
theorem Cx.im_zero : (0 : Cx).im = 0 := rfl

/-!
## The hop-decision pipeline of `step.py`

`get_a` executes `a = np.zeros(num_samples, num_states, num_states)`.
The signature of `np.zeros` is `np.zeros(shape, dtype=float, order="C")`:
the source passes the integer `num_states` positionally both as `dtype`
and as `order`.  An integer is not a valid `order` (only the strings
"C" and "F" are), so numpy raises before any array is built; even if the
first two arguments were accepted the result would be the 1-dimensional
array `np.zeros(num_samples)` and the subsequent 2-index assignment
`a[..., i, j]` would raise IndexError.  The embedding models the call
with an explicit argument type so that the error is raised exactly where
the source raises it.
-/

/-- A positional Python argument: an integer or a string. -/
inductive PyArg where
  | int (n : ℤ)
  | str (s : String)
deriving DecidableEq, Repr

/-- Embedding of a positional call `np.zeros(shape, dtype, order)`: the
`order` argument must be one of the strings "C" or "F"; any other value
raises TypeError. -/
def np_zeros (shape : ℕ) (dtype : PyArg) (order : PyArg) :
    Except String (List ℚ) :=
  match dtype, order with
  | _, PyArg.str s =>
      if s = "C" ∨ s = "F" then Except.ok (List.replicate shape 0)
      else Except.error "ValueError"
  | _, PyArg.int _ => Except.error "TypeError"

/-- Embedding of `get_a` (step.py).  The source allocates the result with
`np.zeros(num_samples, num_states, num_states)`, a misuse of `np.zeros`
that raises TypeError for every input; the loop that would fill
`a[..., i, j] = conj(c_i) * c_j` is kept after the failing allocation,
exactly as in the source. -/
def get_a (c : List (List Cx)) : Except String (List (List (List Cx))) := do
  let num_samples := c.length
  let num_states := (c.headD []).length
  let _ ← np_zeros num_samples (PyArg.int num_states) (PyArg.int num_states)
  Except.ok (c.map (fun cn =>
    (List.range num_states).map (fun i =>
      (List.range num_states).map (fun j =>
        Cx.conj (cn.getD i 0) * cn.getD j 0))))

/-- Embedding of `get_p_hop` (step.py): `b = -2 * Re(conj(a) * T)`,
`a_surf = a[surf, surf]` per sample, `b_surf = b[:, surf]` per sample and
`p = dt * b_surf / a_surf`.  `a_surf` is real (it equals the squared
modulus of the active coefficient), so the division is carried out on its
real part; a vanishing `a_surf` would give a non-finite value in numpy,
while rational division by zero yields 0 here — the distinction never
matters because `get_a` raises first. -/
def get_p_hop (c : List (List Cx)) (T : List (List (List ℚ))) (dt : ℚ)
    (surfs : List ℕ) : Except String (List (List ℚ)) := do
  let a ← get_a c
  let b := List.zipWith
    (fun an Tn => List.zipWith
      (fun ai Ti => List.zipWith
        (fun aij tij => -2 * ((Cx.conj aij).re * tij)) ai Ti) an Tn) a T
  let numSamples := c.length
  Except.ok ((List.range numSamples).map (fun n =>
    let surf := surfs.getD n 0
    let aSurf := (((a.getD n []).getD surf []).getD surf 0).re
    let bn := b.getD n []
    bn.map (fun bi => dt * bi.getD surf 0 / aSurf)))

/-- Python truthiness of the boolean array `p > rnd` used in the line
`if hop:` of `get_new_surf`: a numpy array converts to a Bool only when
it has exactly one element, otherwise ValueError is raised. -/
def array_truthy_gt (p : List (List ℚ)) (rnd : ℚ) : Except String Bool :=
  match p.flatten with
  | [x] => Except.ok (decide (x > rnd))
  | _ => Except.error "ValueError"

/-- Embedding of the fancy-indexing expression `p_hop[idx]` inside
`get_new_surf`: `idx` (the shuffled list of STATE indices) selects whole
rows of `p_hop` along the SAMPLE axis, raising IndexError whenever a
state index is not a valid sample index. -/
def fancy_rows (pHop : List (List ℚ)) (idx : List ℕ) :
    Except String (List (List ℚ)) :=
  if idx.all (fun i => i < pHop.length) then
    Except.ok (idx.map (fun i => pHop.getD i []))
  else Except.error "IndexError"

/-- Embedding of the inner candidate loop of `get_new_surf` (step.py) for
one sample: it walks the shuffled candidate list, skips the current
surface, rebinds `p` to `p_hop[idx]` (the shadowing bug of the source:
the whole shuffled index list indexes the sample axis), draws one random
number per candidate, and tests `if hop:` on the resulting array. -/
def hop_loop (pHop : List (List ℚ)) (idxFull : List ℕ) (surf : ℕ) :
    List ℕ → List ℚ → Except String ℕ
  | [], _ => Except.ok surf
  | i :: rest, rnds =>
      if i = surf then hop_loop pHop idxFull surf rest rnds
      else do
        let p ← fancy_rows pHop idxFull
        let rnd := rnds.headD 0
        let hop ← array_truthy_gt p rnd
        if hop then Except.ok i else hop_loop pHop idxFull surf rest rnds.tail

/-- Embedding of `get_new_surf` (step.py).  The random shuffles and the
uniform draws are passed in explicitly, one shuffled index list and one
stream of draws per sample, so the theorem quantifies over every outcome
of the randomness. -/
def get_new_surf (pHop : List (List ℚ)) (numStates : ℕ) (surfs : List ℕ)
    (shuffles : List (List ℕ)) (rnds : List (List ℚ)) :
    Except String (List ℕ) :=
  (List.zip surfs (List.zip shuffles rnds)).mapM
    (fun s => hop_loop pHop s.2.1 s.1 s.2.1 s.2.2)

/-!
## Velocity rescaling and `try_hop`

`rescale` mixes NaN into the velocities of frustrated samples
(`scale[scale < 0] = np.nan` followed by `scale ** 0.5`), and `try_hop`
detects those NaNs to restore the original surface and velocity.  Values
that may be non-finite are embedded as `Option ℚ` with `none` for a
non-finite float.  Real square roots of rationals are irrational in
general; `rat_sqrt` below is exact on perfect squares and floor-based
otherwise.  All of this is dead code in `try_hop`: the `np.zeros` misuse
inside `get_a` raises before `rescale` is ever reached, and no theorem
in this file depends on an inexact `rat_sqrt` value.
-/

/-- Non-finite-tracking rational: `none` stands for a NaN (or infinite)
floating-point value. -/
def NQ : Type := Option ℚ

instance : DecidableEq NQ := inferInstanceAs (DecidableEq (Option ℚ))

instance : Inhabited NQ := ⟨some 0⟩

/-- Lift a rational into a non-finite-tracking value. -/
def nq (q : ℚ) : NQ := some q

/-- NaN-propagating addition. -/
def nqAdd (a b : NQ) : NQ := a.bind (fun x => b.map (fun y => x + y))

/-- NaN-propagating subtraction. -/
def nqSub (a b : NQ) : NQ := a.bind (fun x => b.map (fun y => x - y))

/-- NaN-propagating multiplication. -/
def nqMul (a b : NQ) : NQ := a.bind (fun x => b.map (fun y => x * y))

/-- Floor-based rational square root (exact on ratios of perfect
squares); returns 0 exactly on input 0, which is the only property the
`norm == 0` test of `rescale` relies on. -/
def rat_sqrt (q : ℚ) : ℚ :=
  (Nat.sqrt q.num.toNat : ℚ) / (Nat.sqrt q.den : ℚ)

/-- A velocity entry of `rescale`: one atom, three possibly-non-finite
Cartesian components. -/
def NVec3 : Type := NQ × NQ × NQ

instance : DecidableEq NVec3 := inferInstanceAs (DecidableEq (NQ × NQ × NQ))

instance : Inhabited NVec3 := ⟨(nq 0, nq 0, nq 0)⟩

/-- Componentwise application of a binary NaN-propagating operation. -/
def nvMap2 (f : NQ → NQ → NQ) (u v : NVec3) : NVec3 :=
  (f u.1 v.1, f u.2.1 v.2.1, f u.2.2 v.2.2)

/-- Broadcasting of the 1-dimensional `scale` array (one entry per
sample) against the 3-dimensional `v_par` array in the source line
`new_vel = scale * v_par + vel - v_par`: numpy aligns trailing axes, so
the shapes `(S,)` and `(S, A, 3)` are compatible only when `S = 1`
(scalar broadcast) or `S = 3` (in which case `scale` is wrongly applied
along the Cartesian axis); every other `S` raises ValueError. -/
def bcast_scale (scale : List NQ) (ax : ℕ) : NQ :=
  if scale.length = 1 then scale.getD 0 default else scale.getD ax default

/-- Embedding of `rescale` (step.py): select the old and new energies and
the NACV of the surface pair, normalize it (a zero norm is replaced by 1,
the no-hop case), project the velocity on the coupling direction, form
the parallel kinetic energy and the scaling factor
`(old_en + ke_par - new_en) / ke_par`, replace negative factors by NaN,
take the square root and reassemble the velocity.  A zero `ke_par` gives
the non-finite `0/0` (or `x/0`) of numpy, modelled as `none`. -/
def rescale (energy : List (List ℚ)) (vel : List (List Vec3))
    (nacv : List (List (List (List Vec3)))) (mass : List ℚ)
    (surfs newSurfs : List ℕ) :
    Except String (List (List NVec3)) :=
  let numSamples := vel.length
  let oldEn := fun n => (energy.getD n []).getD (surfs.getD n 0) 0
  let newEn := fun n => (energy.getD n []).getD (newSurfs.getD n 0) 0
  let pairNacv := fun n =>
    (((nacv.getD n []).getD (surfs.getD n 0) []).getD (newSurfs.getD n 0) [])
  let nacDir := fun n =>
    (pairNacv n).map (fun v =>
      let norm0 := rat_sqrt (dot3 v v)
      let norm := if norm0 = 0 then 1 else norm0
      ((v.1 / norm, v.2.1 / norm, v.2.2 / norm) : Vec3))
  let vPar := fun n =>
    List.zipWith (fun d w =>
      let s := dot3 d w
      ((s * d.1, s * d.2.1, s * d.2.2) : Vec3)) (nacDir n) (vel.getD n [])
  let kePar := fun n =>
    (List.zipWith (fun m (v : Vec3) => 1 / 2 * m * dot3 v v)
      mass (vPar n)).foldr (· + ·) 0
  let scale : List NQ := (List.range numSamples).map (fun n =>
    if kePar n = 0 then none
    else
      let s := (oldEn n + kePar n - newEn n) / kePar n
      if s < 0 then none else some (rat_sqrt s))
  if numSamples = 1 ∨ numSamples = 3 then
    Except.ok ((List.range numSamples).map (fun n =>
      (List.range (vel.getD n []).length).map (fun atm =>
        let vp := (vPar n).getD atm ((0, 0, 0) : Vec3)
        let w := (vel.getD n []).getD atm ((0, 0, 0) : Vec3)
        ((nqAdd (nqMul (bcast_scale scale (if numSamples = 1 then n else 0))
                  (nq vp.1)) (nq (w.1 - vp.1)),
          nqAdd (nqMul (bcast_scale scale (if numSamples = 1 then n else 1))
                  (nq vp.2.1)) (nq (w.2.1 - vp.2.1)),
          nqAdd (nqMul (bcast_scale scale (if numSamples = 1 then n else 2))
                  (nq vp.2.2)) (nq (w.2.2 - vp.2.2))) : NVec3))))
  else Except.error "ValueError"

/-- A velocity entry is NaN when any Cartesian component is non-finite;
this is the per-sample test `np.isnan(new_vel).any(-1).any(-1)` of
`try_hop`. -/
def nvHasNaN (v : NVec3) : Bool := v.1.isNone || v.2.1.isNone || v.2.2.isNone

/-- Embedding of `try_hop` (step.py): compute the hop probabilities,
draw the new surfaces, rescale the velocities, and reset every frustrated
sample (any NaN in its new velocity) to its original surface and
velocity. -/
def try_hop (c : List (List Cx)) (T : List (List (List ℚ))) (dt : ℚ)
    (surfs : List ℕ) (vel : List (List Vec3))
    (nacv : List (List (List (List Vec3)))) (mass : List ℚ)
    (energy : List (List ℚ)) (shuffles : List (List ℕ))
    (rnds : List (List ℚ)) :
    Except String (List ℕ × List (List NVec3)) := do
  let pHop ← get_p_hop c T dt surfs
  let numStates := (energy.headD []).length
  let newSurfs ← get_new_surf pHop numStates surfs shuffles rnds
  let newVel ← rescale energy vel nacv mass surfs newSurfs
  let frustrated := fun n => ((newVel.getD n []).any nvHasNaN)
  let outSurfs := (List.range surfs.length).map (fun n =>
    if frustrated n then surfs.getD n 0 else newSurfs.getD n 0)
  let outVel := (List.range vel.length).map (fun n =>
    if frustrated n then
      (vel.getD n []).map (fun w => ((nq w.1, nq w.2.1, nq w.2.2) : NVec3))
    else newVel.getD n [])
  Except.ok (outSurfs, outVel)

/-!
## Claims C1, C2, C3 (Tully stepper)
-/

/-- C1: the claim states that one call to `runge_c` returns the standard
4th-order Runge-Kutta update `c + (elec_dt/6)*(k1 + 2*k2 + 2*k3 + k4)`
and conserves the coefficient norm up to integration error.  The source
omits the factor `elec_dt` in the final combination: on the one-sample,
one-state input `c = [[1]]`, `energy = [[1]]`, zero NACV, zero velocity
and `elec_dt = 1/10`, the code returns
`[[22801/24000 - (599/600) i]]` while the Runge-Kutta update is
`[[238801/240000 - (599/6000) i]]`, and the squared norm of the code's
result exceeds 9/5 instead of staying near 1. -/
theorem c1_runge_c_omits_elec_dt :
    (runge_c c1Input c1Vel c1Nacv c1Energy (1/10) 1).1 ≠
      rk4_spec_update c1Input c1Vel c1Nacv c1Energy (1/10) 1 ∧
    normSqFirst (runge_c c1Input c1Vel c1Nacv c1Energy (1/10) 1).1 > 9/5 := by
  norm_num [runge_c, rk4_spec_update, get_dc_dt, compute_T_mat,
    compute_T_coupling, matAdd, matSmul, rowAdd, rowSmul, cxSum, Cx.smul,
    Cx.unitIm, Cx.normSq, normSqFirst, dot3, c1Input, c1Vel, c1Nacv, c1Energy,
    Cx.add_def, Cx.mul_def, Cx.neg_def, Cx.zero_def, Cx.re_zero, Cx.im_zero]

/-- Coefficients for the C2 failing input: one sample, two states. -/
def c2Input : List (List Cx) := [[⟨1, 0⟩, ⟨0, 0⟩]]

/-- Coupling matrix for the C2 failing input. -/
def c2T : List (List (List ℚ)) := [[[0, 1/100], [-1/100, 0]]]

/-- Hop probabilities for exercising `get_new_surf` directly: two
samples, two states. -/
def c2PHop : List (List ℚ) := [[0, 1/2], [1/2, 0]]

/-- C2: the claim states that the hop decision first forms
`a_ij = conj(c_i)*c_j` and `p_i = dt * b_surf_i / a_surf_surf`, then per
sample visits the shuffled candidates and switches on the first whose
probability exceeds its uniform draw.  The code never gets there:
`get_a` misuses `np.zeros` (three positional integers instead of a shape
tuple), raising TypeError on every input, so `get_p_hop` raises; and
`get_new_surf` itself rebinds `p` to the fancy-indexed array
`p_hop[idx]` and evaluates `if hop:` on a multi-element boolean array,
raising ValueError on its first candidate whenever there are at least
two states and two samples. -/
theorem c2_hop_decision_raises :
    get_p_hop c2Input c2T (1/2) [0] = Except.error "TypeError" ∧
    get_new_surf c2PHop 2 [0, 1] [[0, 1], [1, 0]] [[1/4], [1/4]] =
      Except.error "ValueError" := by
  constructor <;> rfl

/-- Coefficients for the C3 failing input. -/
def c3Input : List (List Cx) := [[⟨1, 0⟩, ⟨0, 0⟩]]

/-- Coupling matrix for the C3 failing input. -/
def c3T : List (List (List ℚ)) := [[[0, 0], [0, 0]]]

/-- Velocity for the C3 failing input: one sample, one atom. -/
def c3Vel : List (List Vec3) := [[((1 : ℚ), (0 : ℚ), (0 : ℚ))]]

/-- NACV for the C3 failing input: the coupling vector of the pair
(0, 1) points along x, so a hop 0 -> 1 would have parallel kinetic
energy 1/2 against an energy gap of 100 and would be frustrated. -/
def c3Nacv : List (List (List (List Vec3))) :=
  [[[[((0 : ℚ), (0 : ℚ), (0 : ℚ))], [((1 : ℚ), (0 : ℚ), (0 : ℚ))]],
    [[((1 : ℚ), (0 : ℚ), (0 : ℚ))], [((0 : ℚ), (0 : ℚ), (0 : ℚ))]]]]

/-- Per-state energies for the C3 failing input: the target surface lies
100 energy units above the active one. -/
def c3Energy : List (List ℚ) := [[0, 100]]

/-- C3: the claim states that a frustrated hop
(`E_s + KE_parallel - E_s' < 0`) leaves the sample's surface and
velocity untouched and propagates no NaN.  `try_hop` never reaches that
logic: its first step `get_p_hop` raises the TypeError of the `np.zeros`
misuse in `get_a`, so on this hand-constructed frustrated scenario (and
on every other input) `try_hop` raises instead of returning the restored
state. -/
theorem c3_try_hop_raises_before_frustration :
    try_hop c3Input c3T (1/2) [0] c3Vel c3Nacv [1] c3Energy [[1, 0]] [[0]] =
      Except.error "TypeError" := by
  rfl

/-!
## Embedding of the neighbor-list builders

`get_neighbor_list` lives in `nff/data/graphs.py`; `torch_nbr_list` in
`nff/nn/utils.py`.  Positions are rational 3-vectors; the real-valued
distance comparison `dist <= cutoff` of `get_neighbor_list` (the source
takes a square root first) is embedded by the exact equivalent test
`0 <= cutoff and dist_sq <= cutoff^2`, proved faithful below in
`sqrt_le_correct`.  `torch_nbr_list` never takes a square root: it
compares `dis_sq < cutoff ** 2` directly, as in the source.
-/

/-- Difference of two 3-vectors. -/
def v3sub (u v : Vec3) : Vec3 := (u.1 - v.1, u.2.1 - v.2.1, u.2.2 - v.2.2)

/-- Squared Euclidean distance between two points. -/
def distSq (p q : Vec3) : ℚ := dot3 (v3sub p q) (v3sub p q)

/-- Embedding of the comparison `sqrt dist_sq <= cutoff` on nonnegative
`dist_sq`: it holds exactly when the cutoff is nonnegative and
`dist_sq <= cutoff^2`. -/
def sqrt_le (dsq cutoff : ℚ) : Bool :=
  decide (0 ≤ cutoff) && decide (dsq ≤ cutoff ^ 2)

/-- Faithfulness of `sqrt_le`: it agrees with the real-valued comparison
the Python source performs. -/
theorem sqrt_le_correct (d c : ℚ) :
    sqrt_le d c = true ↔ Real.sqrt (d : ℝ) ≤ (c : ℝ) := by
  rw [Real.sqrt_le_iff]
  simp only [sqrt_le, Bool.and_eq_true, decide_eq_true_eq]
  constructor
  · rintro ⟨h1, h2⟩
    refine ⟨by exact_mod_cast h1, by exact_mod_cast h2⟩
  · rintro ⟨h1, h2⟩
    refine ⟨by exact_mod_cast h1, by exact_mod_cast h2⟩

/-- All ordered index pairs of an `n x n` mask, in the row-major order in
which `torch.nonzero` returns them. -/
def pairList (n : ℕ) : List (ℕ × ℕ) :=
  (List.range n).flatMap (fun i => (List.range n).map (fun j => (i, j)))

/-- Membership in the row-major pair list. -/
theorem mem_pairList (n : ℕ) (i j : ℕ) :
    (i, j) ∈ pairList n ↔ i < n ∧ j < n := by
  simp [pairList, List.mem_flatMap, List.mem_map, List.mem_range,
    Prod.mk.injEq]

/-- Embedding of `get_neighbor_list` (graphs.py): mask where the
distance is at most the cutoff, zero the diagonal, collect the nonzero
positions, and if `undirected` keep only the pairs with `j > i`. -/
def get_neighbor_list (xyz : List Vec3) (cutoff : ℚ) (undirected : Bool) :
    List (ℕ × ℕ) :=
  let mask := fun (i j : ℕ) =>
    sqrt_le (distSq (xyz.getD i default) (xyz.getD j default)) cutoff &&
      decide (i ≠ j)
  let nbr := (pairList xyz.length).filter (fun p => mask p.1 p.2)
  if undirected then nbr.filter (fun p => decide (p.1 < p.2)) else nbr

/-- Wrapping of one coordinate into the cell `[0, L)`, the
`get_positions(wrap=True)` of the torch builder for an orthorhombic
cell. -/
def wrap_coord (L x : ℚ) : ℚ := x - L * (⌊x / L⌋ : ℤ)

/-- Wrapping of a position into an orthorhombic cell given by its three
diagonal lengths. -/
def wrap_pos (cell : Vec3) (p : Vec3) : Vec3 :=
  (wrap_coord cell.1 p.1, wrap_coord cell.2.1 p.2.1,
   wrap_coord cell.2.2 p.2.2)

/-- Embedding of the per-axis offset of `torch_nbr_list`:
`offsets = -dis_mat.ge(0.5*cell_dim) + dis_mat.lt(-0.5*cell_dim)`, a
value in {-1, 0, 1}. -/
def mic_offset (L d : ℚ) : ℚ :=
  (if L / 2 ≤ d then -1 else 0) + (if d < -(L / 2) then 1 else 0)

/-- The displacement entry `dis_mat[i][j] = xyz[j] - xyz[i]` of
`torch_nbr_list`. -/
def torch_disp (xyz : List Vec3) (i j : ℕ) : Vec3 :=
  v3sub (xyz.getD j default) (xyz.getD i default)

/-- The per-pair offset vector of `torch_nbr_list` (zero when not
periodic). -/
def torch_off (cell : Vec3) (pbc : Bool) (d : Vec3) : Vec3 :=
  if pbc then
    ((mic_offset cell.1 d.1, mic_offset cell.2.1 d.2.1,
      mic_offset cell.2.2 d.2.2) : Vec3)
  else ((0, 0, 0) : Vec3)

/-- The corrected displacement `dis_mat + offsets * cell_dim` of
`torch_nbr_list`. -/
def torch_corr (cell d o : Vec3) : Vec3 :=
  (d.1 + o.1 * cell.1, d.2.1 + o.2.1 * cell.2.1, d.2.2 + o.2.2 * cell.2.2)

/-- The squared-distance entry `dis_sq[i][j]` of `torch_nbr_list`,
computed on the (already wrapped, when periodic) position list. -/
def torch_dis_sq (cell : Vec3) (pbc : Bool) (xyz : List Vec3)
    (i j : ℕ) : ℚ :=
  let d := torch_disp xyz i j
  let c := torch_corr cell d (torch_off cell pbc d)
  dot3 c c

/-- Embedding of `torch_nbr_list` (nn/utils.py) for an orthorhombic cell:
wrap the positions when periodic, form the displacement matrix
`xyz[j] - xyz[i]`, add the single-image offsets times the cell lengths
when periodic, and keep the pairs with `0 < dis_sq < cutoff ** 2`
(strict on both sides); keep only `j > i` when not directed.  Returns
the edge list together with the per-edge offset vectors (zero when not
periodic). -/
def torch_nbr_list (xyz0 : List Vec3) (cell : Vec3) (pbc : Bool)
    (cutoff : ℚ) (directed : Bool) : List (ℕ × ℕ) × List Vec3 :=
  let xyz := if pbc then xyz0.map (wrap_pos cell) else xyz0
  let mask := fun (i j : ℕ) =>
    decide (torch_dis_sq cell pbc xyz i j < cutoff ^ 2) &&
      decide (torch_dis_sq cell pbc xyz i j ≠ 0)
  let nbr0 := (pairList xyz.length).filter (fun p => mask p.1 p.2)
  let nbr := if directed then nbr0
             else nbr0.filter (fun p => decide (p.1 < p.2))
  (nbr, nbr.map (fun p => torch_off cell pbc (torch_disp xyz p.1 p.2)))

/-- Modelled from the spec (section 4.1): the per-axis minimum-image
correction — when the displacement reaches half the cell length on an
axis, one full cell length is subtracted (or added). -/
def mic_delta (L d : ℚ) : ℚ :=
  if L / 2 ≤ d then d - L else if d < -(L / 2) then d + L else d

/-- Modelled from the spec: the squared minimum-image-corrected distance
between two positions, after wrapping them into the cell; the plain
squared Euclidean distance when not periodic. -/
def mic_dist_sq (pbc : Bool) (cell : Vec3) (p q : Vec3) : ℚ :=
  if pbc then
    let d := v3sub (wrap_pos cell q) (wrap_pos cell p)
    mic_delta cell.1 d.1 ^ 2 + mic_delta cell.2.1 d.2.1 ^ 2 +
      mic_delta cell.2.2 d.2.2 ^ 2
  else distSq p q

/-- For a nonnegative cell length the spec's minimum-image correction and
the code's offset arithmetic coincide. -/
theorem mic_delta_eq_offset (L d : ℚ) (hL : 0 ≤ L) :
    mic_delta L d = d + mic_offset L d * L := by
  unfold mic_delta mic_offset
  rcases eq_or_lt_of_le hL with h0 | hpos
  · rw [← h0]
    split_ifs <;> ring
  · split_ifs with h1 h2 h2
    · exfalso
      have : -(L / 2) < L / 2 := by linarith
      linarith
    · ring
    · ring
    · ring

/-- The minimum-image squared distance is nonnegative. -/
theorem mic_dist_sq_nonneg (pbc : Bool) (cell : Vec3) (p q : Vec3) :
    0 ≤ mic_dist_sq pbc cell p q := by
  cases pbc with
  | false =>
      simp [mic_dist_sq, distSq, dot3, v3sub]
      nlinarith [mul_self_nonneg (p.1 - q.1), mul_self_nonneg (p.2.1 - q.2.1),
        mul_self_nonneg (p.2.2 - q.2.2)]
  | true =>
      simp [mic_dist_sq]
      positivity

/-- The squared distance computed inside `torch_nbr_list` (wrapped
positions plus single-image offsets) equals the spec's minimum-image
squared distance of the raw positions, for a cell with nonnegative
lengths. -/
theorem torch_dis_sq_eq_mic (xyz : List Vec3) (cell : Vec3) (pbc : Bool)
    (i j : ℕ) (hi : i < xyz.length) (hj : j < xyz.length)
    (hc1 : 0 ≤ cell.1) (hc2 : 0 ≤ cell.2.1) (hc3 : 0 ≤ cell.2.2) :
    torch_dis_sq cell pbc (if pbc then xyz.map (wrap_pos cell) else xyz) i j =
      mic_dist_sq pbc cell (xyz.getD i default) (xyz.getD j default) := by
  cases pbc with
  | false =>
      simp [torch_dis_sq, mic_dist_sq, torch_disp, torch_off, torch_corr,
        distSq, v3sub, dot3]
      ring
  | true =>
      have hgi : (xyz.map (wrap_pos cell)).getD i default =
          wrap_pos cell (xyz.getD i default) := by
        rw [List.getD_eq_getElem _ _ (by simpa using hi),
          List.getD_eq_getElem _ _ hi]
        simp
      have hgj : (xyz.map (wrap_pos cell)).getD j default =
          wrap_pos cell (xyz.getD j default) := by
        rw [List.getD_eq_getElem _ _ (by simpa using hj),
          List.getD_eq_getElem _ _ hj]
        simp
      simp only [if_true, cond_true]
      simp only [torch_dis_sq, mic_dist_sq, torch_disp, torch_off,
        torch_corr, v3sub, dot3, hgi, hgj, if_pos]
      rw [mic_delta_eq_offset cell.1 _ hc1,
        mic_delta_eq_offset cell.2.1 _ hc2,
        mic_delta_eq_offset cell.2.2 _ hc3]
      ring

/-- Membership characterization for `torch_nbr_list`: an edge is present
exactly when both indices are in range, the undirected convention keeps
the pair, and the minimum-image squared distance lies strictly between 0
and the squared cutoff. -/
theorem torch_nbr_list_mem (xyz : List Vec3) (cell : Vec3) (pbc : Bool)
    (cutoff : ℚ) (directed : Bool) (i j : ℕ)
    (hc1 : 0 ≤ cell.1) (hc2 : 0 ≤ cell.2.1) (hc3 : 0 ≤ cell.2.2) :
    (i, j) ∈ (torch_nbr_list xyz cell pbc cutoff directed).1 ↔
      i < xyz.length ∧ j < xyz.length ∧ (directed = false → i < j) ∧
      0 < mic_dist_sq pbc cell (xyz.getD i default) (xyz.getD j default) ∧
      mic_dist_sq pbc cell (xyz.getD i default) (xyz.getD j default) <
        cutoff ^ 2 := by
  have hlen : (if pbc then xyz.map (wrap_pos cell) else xyz).length =
      xyz.length := by
    cases pbc <;> simp
  cases directed with
  | true =>
      simp only [torch_nbr_list, if_pos, if_true]
      rw [List.mem_filter]
      rw [hlen, mem_pairList]
      constructor
      · rintro ⟨⟨hi, hj⟩, hm⟩
        simp only [Bool.and_eq_true, decide_eq_true_eq] at hm
        rw [torch_dis_sq_eq_mic xyz cell pbc i j hi hj hc1 hc2 hc3] at hm
        refine ⟨hi, hj, by simp,
          lt_of_le_of_ne (mic_dist_sq_nonneg pbc cell _ _) (Ne.symm hm.2),
          hm.1⟩
      · rintro ⟨hi, hj, _, hpos, hlt⟩
        refine ⟨⟨hi, hj⟩, ?_⟩
        simp only [Bool.and_eq_true, decide_eq_true_eq]
        rw [torch_dis_sq_eq_mic xyz cell pbc i j hi hj hc1 hc2 hc3]
        exact ⟨hlt, ne_of_gt hpos⟩
  | false =>
      simp only [torch_nbr_list, Bool.false_eq_true, if_false]
      rw [List.mem_filter, List.mem_filter]
      rw [hlen, mem_pairList]
      constructor
      · rintro ⟨⟨⟨hi, hj⟩, hm⟩, hij⟩
        simp only [Bool.and_eq_true, decide_eq_true_eq] at hm hij
        rw [torch_dis_sq_eq_mic xyz cell pbc i j hi hj hc1 hc2 hc3] at hm
        exact ⟨hi, hj, fun _ => hij,
          lt_of_le_of_ne (mic_dist_sq_nonneg pbc cell _ _) (Ne.symm hm.2),
          hm.1⟩
      · rintro ⟨hi, hj, hij, hpos, hlt⟩
        refine ⟨⟨⟨hi, hj⟩, ?_⟩, by simpa using hij trivial⟩
        simp only [Bool.and_eq_true, decide_eq_true_eq]
        rw [torch_dis_sq_eq_mic xyz cell pbc i j hi hj hc1 hc2 hc3]
        exact ⟨hlt, ne_of_gt hpos⟩

/-- Membership characterization for `get_neighbor_list`: its boundary is
inclusive (`dist <= cutoff`), self-pairs are excluded only by index (a
coincident pair of distinct atoms is kept), and the undirected setting
keeps `i < j`. -/
theorem get_neighbor_list_mem (xyz : List Vec3) (cutoff : ℚ) (u : Bool)
    (i j : ℕ) :
    (i, j) ∈ get_neighbor_list xyz cutoff u ↔
      i < xyz.length ∧ j < xyz.length ∧ i ≠ j ∧ (u = true → i < j) ∧
      0 ≤ cutoff ∧
      distSq (xyz.getD i default) (xyz.getD j default) ≤ cutoff ^ 2 := by
  cases u with
  | false =>
      simp [get_neighbor_list, List.mem_filter, mem_pairList, sqrt_le,
        Bool.and_eq_true, decide_eq_true_eq]
      tauto
  | true =>
      simp [get_neighbor_list, List.mem_filter, mem_pairList, sqrt_le,
        Bool.and_eq_true, decide_eq_true_eq]
      tauto

/-!
## Claims C4 and C8 (neighbor-list builders)
-/

/-- Two atoms exactly at the cutoff distance 2. -/
def c4Xyz : List Vec3 := [((0:ℚ), (0:ℚ), (0:ℚ)), ((2:ℚ), (0:ℚ), (0:ℚ))]

/-- C4 counterexample: the claim states that an edge is produced iff
`0 < d(i,j) <= cutoff`, the boundary pair included.  For two atoms at
distance exactly 2 with cutoff 2 (squared form: `0 < dsq <= cutoff^2`
with `dsq = 4 = cutoff^2`), `torch_nbr_list` produces no edge — its mask
is the strict `dis_sq < cutoff ** 2` — so the equivalence fails. -/
theorem c4_counterexample :
    ¬ (((0, 1) ∈ (torch_nbr_list c4Xyz ((1, 1, 1)) false 2 true).1) ↔
       (0 < distSq (((0:ℚ), (0:ℚ), (0:ℚ)) : Vec3)
              (((2:ℚ), (0:ℚ), (0:ℚ)) : Vec3) ∧
        distSq (((0:ℚ), (0:ℚ), (0:ℚ)) : Vec3)
            (((2:ℚ), (0:ℚ), (0:ℚ)) : Vec3) ≤ 2 ^ 2)) := by
  intro hiff
  have hcond : 0 < distSq (((0:ℚ), (0:ℚ), (0:ℚ)) : Vec3)
      (((2:ℚ), (0:ℚ), (0:ℚ)) : Vec3) ∧
      distSq (((0:ℚ), (0:ℚ), (0:ℚ)) : Vec3)
        (((2:ℚ), (0:ℚ), (0:ℚ)) : Vec3) ≤ 2 ^ 2 := by
    norm_num [distSq, v3sub, dot3]
  have hmem := hiff.mpr hcond
  simp only [torch_nbr_list, if_pos, if_true] at hmem
  rw [List.mem_filter] at hmem
  have hmask := hmem.2
  simp only [Bool.and_eq_true, decide_eq_true_eq] at hmask
  norm_num [torch_dis_sq, torch_disp, torch_off, torch_corr, v3sub, dot3,
    c4Xyz] at hmask

/-- C4 (amended): `get_neighbor_list` produces an edge iff both indices
are in range, `i != j`, the undirected filter keeps the pair, and the
distance is at most the cutoff — boundary pairs included, coincident
distinct atoms included, any negative cutoff excluded; `torch_nbr_list`
produces an edge iff both indices are in range, the directed filter
keeps the pair, and the minimum-image squared distance lies STRICTLY
between 0 and `cutoff^2` — boundary pairs excluded.  Consequently a pair
of distinct atoms absent from `get_neighbor_list` has distance > cutoff,
and one absent from `torch_nbr_list` has minimum-image distance >=
cutoff (or exactly 0). -/
theorem c4_boundary_semantics (xyz : List Vec3) (cell : Vec3) (pbc : Bool)
    (cutoff : ℚ) (directed u : Bool) (i j : ℕ)
    (hc1 : 0 ≤ cell.1) (hc2 : 0 ≤ cell.2.1) (hc3 : 0 ≤ cell.2.2) :
    ((i, j) ∈ (torch_nbr_list xyz cell pbc cutoff directed).1 ↔
      i < xyz.length ∧ j < xyz.length ∧ (directed = false → i < j) ∧
      0 < mic_dist_sq pbc cell (xyz.getD i default) (xyz.getD j default) ∧
      mic_dist_sq pbc cell (xyz.getD i default) (xyz.getD j default) <
        cutoff ^ 2) ∧
    ((i, j) ∈ get_neighbor_list xyz cutoff u ↔
      i < xyz.length ∧ j < xyz.length ∧ i ≠ j ∧ (u = true → i < j) ∧
      0 ≤ cutoff ∧
      distSq (xyz.getD i default) (xyz.getD j default) ≤ cutoff ^ 2) :=
  ⟨torch_nbr_list_mem xyz cell pbc cutoff directed i j hc1 hc2 hc3,
   get_neighbor_list_mem xyz cutoff u i j⟩

/-- The spec's own periodic scenario: cell `[4, 20, 20]`, atoms at
`x = 0.2` and `x = 3.9`, whose minimum-image distance is 0.3. -/
def c4PerXyz : List Vec3 :=
  [((1/5 : ℚ), (0:ℚ), (0:ℚ)), ((39/10 : ℚ), (0:ℚ), (0:ℚ))]

/-- Witness for the amended C4 theorem at the spec's periodic scenario. -/
theorem c4_boundary_semantics_witness :
    ((0:ℚ) ≤ 4 ∧ (0:ℚ) ≤ 20 ∧ (0:ℚ) ≤ 20) ∧
    (((0, 1) ∈ (torch_nbr_list c4PerXyz ((4, 20, 20)) true (1/2) true).1 ↔
      0 < c4PerXyz.length ∧ 1 < c4PerXyz.length ∧ (true = false → 0 < 1) ∧
      0 < mic_dist_sq true ((4, 20, 20)) (c4PerXyz.getD 0 default)
          (c4PerXyz.getD 1 default) ∧
      mic_dist_sq true ((4, 20, 20)) (c4PerXyz.getD 0 default)
          (c4PerXyz.getD 1 default) < (1/2) ^ 2) ∧
    ((0, 1) ∈ get_neighbor_list c4PerXyz (1/2) true ↔
      0 < c4PerXyz.length ∧ 1 < c4PerXyz.length ∧ (0 : ℕ) ≠ 1 ∧
      (true = true → 0 < 1) ∧ (0:ℚ) ≤ 1/2 ∧
      distSq (c4PerXyz.getD 0 default) (c4PerXyz.getD 1 default) ≤
        (1/2) ^ 2)) :=
  ⟨⟨by norm_num, by norm_num, by norm_num⟩,
   c4_boundary_semantics c4PerXyz ((4, 20, 20)) true (1/2) true true 0 1
     (by norm_num) (by norm_num) (by norm_num)⟩

/-- Two atoms at distance 1/2, used for the C8 counterexample. -/
def c8Xyz : List Vec3 := [((0:ℚ), (0:ℚ), (0:ℚ)), ((1/2 : ℚ), (0:ℚ), (0:ℚ))]

/-- C8 counterexample: the claim states that a cutoff <= 0 makes the
builders fail immediately with InvalidParameter instead of returning a
pair list.  Neither builder validates the cutoff: at cutoff -1,
`get_neighbor_list` returns the empty edge list, and `torch_nbr_list`
even returns the two edges of a pair at distance 1/2, because it squares
the cutoff before comparing. -/
theorem c8_counterexample :
    get_neighbor_list c8Xyz (-1) true = [] ∧
    (torch_nbr_list c8Xyz ((1, 1, 1)) false (-1) true).1 = [(0, 1), (1, 0)] := by
  constructor
  · norm_num [get_neighbor_list, pairList, sqrt_le, distSq, v3sub, dot3,
      c8Xyz, List.range_succ, List.filter]
  · norm_num [torch_nbr_list, pairList, torch_dis_sq, torch_disp, torch_off,
      torch_corr, v3sub, dot3, c8Xyz, List.range_succ, List.filter]

/-- C8 (amended): no validation of the cutoff takes place in either
builder.  For any negative cutoff `get_neighbor_list` silently returns
the empty edge list (its real-valued comparison `dist <= cutoff` never
holds), while `torch_nbr_list` silently behaves exactly as it does for
`|cutoff|`, because it only ever uses `cutoff ** 2`. -/
theorem c8_no_cutoff_validation (xyz : List Vec3) (u : Bool) (cutoff : ℚ)
    (h : cutoff < 0) :
    get_neighbor_list xyz cutoff u = [] ∧
    (∀ (cell : Vec3) (pbc directed : Bool),
      torch_nbr_list xyz cell pbc cutoff directed =
        torch_nbr_list xyz cell pbc (-cutoff) directed) := by
  constructor
  · have hsq : ∀ d : ℚ, sqrt_le d cutoff = false := by
      intro d
      simp [sqrt_le, not_le.mpr h]
    cases u <;> simp [get_neighbor_list, hsq]
  · intro cell pbc directed
    simp only [torch_nbr_list, neg_sq]

/-- Witness for the amended C8 theorem at cutoff -1. -/
theorem c8_no_cutoff_validation_witness :
    ((-1 : ℚ) < 0) ∧
    (get_neighbor_list c8Xyz (-1) true = [] ∧
     (∀ (cell : Vec3) (pbc directed : Bool),
       torch_nbr_list c8Xyz cell pbc (-1) directed =
         torch_nbr_list c8Xyz cell pbc (-(-1)) directed)) :=
  ⟨by norm_num, c8_no_cutoff_validation c8Xyz true (-1) (by norm_num)⟩

/-!
## Embedding of `collate_dicts` (nff/data/loader.py)

A per-system dictionary is embedded as a structure holding the
reindexable keys (`atoms_nbr_list`, `nbr_list`, `angle_list` shifted by
cumulative atom counts; `ji_idx`, `kj_idx` shifted by cumulative
neighbor-list lengths), the `num_atoms` scalar, and a representative
non-reindexed tensor key `nxyz`.  The in-place dictionary mutation
`d[key] = d[key] + int(n)` of the source is embedded by returning the
updated dictionaries alongside the batch.
-/

/-- A per-system dictionary of the data loader. -/
structure SysDict where
  num_atoms : ℕ
  nbr_list : List (ℕ × ℕ)
  angle_list : List (ℕ × ℕ × ℕ)
  atoms_nbr_list : List (ℕ × ℕ)
  ji_idx : List ℕ
  kj_idx : List ℕ
  nxyz : List (ℚ × ℚ × ℚ × ℚ)
deriving DecidableEq, Repr

instance : Inhabited SysDict := ⟨⟨0, [], [], [], [], [], []⟩⟩

/-- The collated batch returned by `collate_dicts`: scalars are stacked,
tensors are concatenated along their first axis. -/
structure Batch where
  num_atoms : List ℕ
  nbr_list : List (ℕ × ℕ)
  angle_list : List (ℕ × ℕ × ℕ)
  atoms_nbr_list : List (ℕ × ℕ)
  ji_idx : List ℕ
  kj_idx : List ℕ
  nxyz : List (ℚ × ℚ × ℚ × ℚ)
deriving DecidableEq, Repr

/-- Shift both endpoints of an edge by an offset. -/
def shiftPair (n : ℕ) (p : ℕ × ℕ) : ℕ × ℕ := (p.1 + n, p.2 + n)

/-- Shift the three atoms of an angle record by an offset. -/
def shiftTriple (n : ℕ) (t : ℕ × ℕ × ℕ) : ℕ × ℕ × ℕ :=
  (t.1 + n, t.2.1 + n, t.2.2 + n)

/-- Embedding of `np.cumsum`: entry `k` is the sum of the first `k+1`
entries. -/
def np_cumsum (l : List ℕ) : List ℕ :=
  (List.range l.length).map (fun k => (l.take (k + 1)).sum)

/-- The exclusive prefix sums `np.cumsum([0] + counts)[:-1]` of the
source. -/
def cum_excl (counts : List ℕ) : List ℕ := (np_cumsum (0 :: counts)).dropLast

/-- The per-dictionary mutation of the first loop of `collate_dicts`:
add the cumulative atom count to every entry of the REINDEX_KEYS. -/
def reindex_atom_keys (n : ℕ) (d : SysDict) : SysDict :=
  { d with atoms_nbr_list := d.atoms_nbr_list.map (shiftPair n),
           nbr_list := d.nbr_list.map (shiftPair n),
           angle_list := d.angle_list.map (shiftTriple n) }

/-- The per-dictionary mutation of the second loop of `collate_dicts`:
add the cumulative neighbor-list length to every entry of the
NBR_LIST_KEYS. -/
def reindex_nbr_keys (n : ℕ) (d : SysDict) : SysDict :=
  { d with kj_idx := d.kj_idx.map (· + n),
           ji_idx := d.ji_idx.map (· + n) }

/-- Embedding of `collate_dicts` (loader.py): compute the exclusive
prefix sums of the atom counts and of the neighbor-list lengths (both
from the dictionaries as given), shift the reindexable keys of each
dictionary in place, and build the batch by stacking scalars and
concatenating tensors in input order.  Returns the mutated dictionaries
together with the batch. -/
def collate_dicts (dicts : List SysDict) : List SysDict × Batch :=
  let cumulative_atoms := cum_excl (dicts.map (fun d => d.num_atoms))
  let cumulative_nbrs := cum_excl (dicts.map (fun d => d.nbr_list.length))
  let dicts1 := List.zipWith reindex_atom_keys cumulative_atoms dicts
  let dicts2 := List.zipWith reindex_nbr_keys cumulative_nbrs dicts1
  (dicts2,
   { num_atoms := dicts2.map (fun d => d.num_atoms),
     nbr_list := (dicts2.map (fun d => d.nbr_list)).flatten,
     angle_list := (dicts2.map (fun d => d.angle_list)).flatten,
     atoms_nbr_list := (dicts2.map (fun d => d.atoms_nbr_list)).flatten,
     ji_idx := (dicts2.map (fun d => d.ji_idx)).flatten,
     kj_idx := (dicts2.map (fun d => d.kj_idx)).flatten,
     nxyz := (dicts2.map (fun d => d.nxyz)).flatten })

/-- Modelled from the spec: the exclusive prefix sum defined by the
recursion `cum[0] = 0, cum[k] = cum[k-1] + count[k-1]`. -/
def spec_cum (counts : List ℕ) : ℕ → ℕ
  | 0 => 0
  | k + 1 => spec_cum counts k + counts.getD k 0

/-- The spec's recursive exclusive prefix sum is the sum of the first
`k` counts. -/
theorem spec_cum_eq_take_sum (counts : List ℕ) (k : ℕ) (hk : k ≤ counts.length) :
    spec_cum counts k = (counts.take k).sum := by
  induction k with
  | zero => simp [spec_cum]
  | succ n ih =>
      have hn : n ≤ counts.length := Nat.le_of_succ_le hk
      have hlt : n < counts.length := hk
      rw [spec_cum, ih hn, List.getD_eq_getElem counts 0 hlt,
        List.sum_take_succ _ _ hlt]

/-- The exclusive prefix-sum list has one entry per count. -/
theorem cum_excl_length (counts : List ℕ) :
    (cum_excl counts).length = counts.length := by
  simp [cum_excl, np_cumsum]

/-- Entry `k` of the exclusive prefix sums is the sum of the first `k`
counts. -/
theorem cum_excl_getElem (counts : List ℕ) (k : ℕ)
    (hk : k < (cum_excl counts).length) :
    (cum_excl counts)[k] = (counts.take k).sum := by
  simp only [cum_excl] at hk ⊢
  rw [List.getElem_dropLast]
  simp only [np_cumsum, List.getElem_map, List.getElem_range]
  rw [List.take_succ_cons]
  simp

/-- The mutated dictionaries returned by `collate_dicts`, written as an
indexed map: system `k` is shifted by the sum of the preceding atom
counts and the sum of the preceding neighbor-list lengths. -/
theorem collate_fst_eq (dicts : List SysDict) :
    (collate_dicts dicts).1 = (List.range dicts.length).map (fun k =>
      reindex_nbr_keys (((dicts.map (fun d => d.nbr_list.length)).take k).sum)
        (reindex_atom_keys (((dicts.map (fun d => d.num_atoms)).take k).sum)
          (dicts.getD k default))) := by
  simp only [collate_dicts]
  apply List.ext_getElem
  · simp [cum_excl_length]
  · intro i h1 h2
    simp only [List.getElem_zipWith, List.getElem_map, List.getElem_range]
    have hi : i < dicts.length := by
      simpa using h2
    rw [cum_excl_getElem, cum_excl_getElem]
    rw [List.getD_eq_getElem dicts default hi]

/-- A prefix sum plus the next entry never exceeds the total sum. -/
theorem sum_take_getElem_le (l : List ℕ) (k : ℕ) (hk : k < l.length) :
    (l.take k).sum + l[k] ≤ l.sum := by
  have h1 : (l.take (k + 1)).sum = (l.take k).sum + l[k] :=
    List.sum_take_succ l k hk
  have h2 : (l.take (k + 1)).sum + (l.drop (k + 1)).sum = l.sum :=
    List.sum_take_add_sum_drop l (k + 1)
  omega

/-- The batched neighbor list is the concatenation, in input order, of
the per-system neighbor lists shifted by the cumulative atom counts. -/
theorem collate_batch_nbr (dicts : List SysDict) :
    (collate_dicts dicts).2.nbr_list =
      (List.range dicts.length).flatMap (fun k =>
        (dicts.getD k default).nbr_list.map
          (shiftPair (((dicts.map (fun d => d.num_atoms)).take k).sum))) := by
  have h1 := collate_fst_eq dicts
  show ((collate_dicts dicts).1.map (fun d => d.nbr_list)).flatten = _
  rw [h1, List.map_map, ← List.flatMap_def]
  apply List.flatMap_congr
  intro k hk
  simp [reindex_nbr_keys, reindex_atom_keys]

/-- The batched angle list is the concatenation of the per-system angle
lists shifted by the cumulative atom counts. -/
theorem collate_batch_angle (dicts : List SysDict) :
    (collate_dicts dicts).2.angle_list =
      (List.range dicts.length).flatMap (fun k =>
        (dicts.getD k default).angle_list.map
          (shiftTriple (((dicts.map (fun d => d.num_atoms)).take k).sum))) := by
  have h1 := collate_fst_eq dicts
  show ((collate_dicts dicts).1.map (fun d => d.angle_list)).flatten = _
  rw [h1, List.map_map, ← List.flatMap_def]
  apply List.flatMap_congr
  intro k hk
  simp [reindex_nbr_keys, reindex_atom_keys]

/-- The batched `ji_idx` array is the concatenation of the per-system
arrays shifted by the cumulative neighbor-list lengths (not atom
counts). -/
theorem collate_batch_ji (dicts : List SysDict) :
    (collate_dicts dicts).2.ji_idx =
      (List.range dicts.length).flatMap (fun k =>
        (dicts.getD k default).ji_idx.map
          (· + ((dicts.map (fun d => d.nbr_list.length)).take k).sum)) := by
  have h1 := collate_fst_eq dicts
  show ((collate_dicts dicts).1.map (fun d => d.ji_idx)).flatten = _
  rw [h1, List.map_map, ← List.flatMap_def]
  apply List.flatMap_congr
  intro k hk
  simp [reindex_nbr_keys, reindex_atom_keys]

/-!
## Claim C5 (batch reindexing)
-/

/-- C5: `collate_dicts` shifts each system's `nbr_list` and `angle_list`
by the exclusive prefix sum of atom counts and its `ji_idx` by the
exclusive prefix sum of neighbor-list lengths, concatenating in input
order; when every local edge index is below its own system's atom
count, every batched edge lies inside a single system's index range —
both endpoints between `cum[k]` and `cum[k] + num_atoms[k]` for the same
`k` — so no edge connects two systems and no index reaches the total
atom count. -/
theorem c5_collate_reindex (dicts : List SysDict)
    (hnbr : ∀ d ∈ dicts, ∀ p ∈ d.nbr_list,
      p.1 < d.num_atoms ∧ p.2 < d.num_atoms) :
    ((collate_dicts dicts).2.nbr_list =
      (List.range dicts.length).flatMap (fun k =>
        (dicts.getD k default).nbr_list.map
          (shiftPair (spec_cum (dicts.map (fun d => d.num_atoms)) k)))) ∧
    ((collate_dicts dicts).2.angle_list =
      (List.range dicts.length).flatMap (fun k =>
        (dicts.getD k default).angle_list.map
          (shiftTriple (spec_cum (dicts.map (fun d => d.num_atoms)) k)))) ∧
    ((collate_dicts dicts).2.ji_idx =
      (List.range dicts.length).flatMap (fun k =>
        (dicts.getD k default).ji_idx.map
          (· + spec_cum (dicts.map (fun d => d.nbr_list.length)) k))) ∧
    (∀ e ∈ (collate_dicts dicts).2.nbr_list, ∃ k, k < dicts.length ∧
      spec_cum (dicts.map (fun d => d.num_atoms)) k ≤ e.1 ∧
      e.1 < spec_cum (dicts.map (fun d => d.num_atoms)) k +
        (dicts.getD k default).num_atoms ∧
      spec_cum (dicts.map (fun d => d.num_atoms)) k ≤ e.2 ∧
      e.2 < spec_cum (dicts.map (fun d => d.num_atoms)) k +
        (dicts.getD k default).num_atoms ∧
      e.1 < (dicts.map (fun d => d.num_atoms)).sum ∧
      e.2 < (dicts.map (fun d => d.num_atoms)).sum) := by
  have hcum : ∀ k ∈ List.range dicts.length,
      spec_cum (dicts.map (fun d => d.num_atoms)) k =
        ((dicts.map (fun d => d.num_atoms)).take k).sum := by
    intro k hk
    rw [List.mem_range] at hk
    exact spec_cum_eq_take_sum _ k (by simpa using Nat.le_of_lt hk)
  have hcumn : ∀ k ∈ List.range dicts.length,
      spec_cum (dicts.map (fun d => d.nbr_list.length)) k =
        ((dicts.map (fun d => d.nbr_list.length)).take k).sum := by
    intro k hk
    rw [List.mem_range] at hk
    exact spec_cum_eq_take_sum _ k (by simpa using Nat.le_of_lt hk)
  refine ⟨?_, ?_, ?_, ?_⟩
  · rw [collate_batch_nbr]
    exact (List.flatMap_congr (fun k hk => by rw [hcum k hk])).symm
  · rw [collate_batch_angle]
    exact (List.flatMap_congr (fun k hk => by rw [hcum k hk])).symm
  · rw [collate_batch_ji]
    exact (List.flatMap_congr (fun k hk => by rw [hcumn k hk])).symm
  · intro e he
    rw [collate_batch_nbr, List.mem_flatMap] at he
    obtain ⟨k, hk, he2⟩ := he
    rw [List.mem_range] at hk
    rw [List.mem_map] at he2
    obtain ⟨p, hp, rfl⟩ := he2
    have hd : dicts.getD k default ∈ dicts := by
      rw [List.getD_eq_getElem dicts default hk]
      exact List.getElem_mem hk
    have hb := hnbr _ hd p hp
    have hmk : k < (dicts.map (fun d => d.num_atoms)).length := by
      simpa using hk
    have htot := sum_take_getElem_le (dicts.map (fun d => d.num_atoms)) k hmk
    have hcnt : (dicts.map (fun d => d.num_atoms)).getD k 0 =
        (dicts.getD k default).num_atoms := by
      rw [List.getD_eq_getElem _ _ hmk, List.getD_eq_getElem dicts default hk]
      simp
    rw [← List.getD_eq_getElem _ _ hmk, hcnt] at htot
    have hcum1 : spec_cum (dicts.map (fun d => d.num_atoms)) k =
        ((dicts.map (fun d => d.num_atoms)).take k).sum :=
      spec_cum_eq_take_sum _ k (by simpa using Nat.le_of_lt hk)
    refine ⟨k, hk, ?_, ?_, ?_, ?_, ?_, ?_⟩ <;>
      simp only [shiftPair, hcum1] <;> omega

/-- A two-system batch used to witness the collate theorems: system 0
has 2 atoms and 2 edges, system 1 has 3 atoms and 1 edge. -/
def collateDicts0 : List SysDict :=
  [⟨2, [(0, 1), (1, 0)], [], [], [0, 1], [1, 0],
    [((6:ℚ), (0:ℚ), (0:ℚ), (0:ℚ)), ((6:ℚ), (1:ℚ), (0:ℚ), (0:ℚ))]⟩,
   ⟨3, [(0, 1)], [(0, 1, 2)], [(1, 2)], [0], [0],
    [((1:ℚ), (0:ℚ), (0:ℚ), (0:ℚ))]⟩]

/-- Witness for C5 on the two-system batch. -/
theorem c5_collate_reindex_witness :
    (∀ d ∈ collateDicts0, ∀ p ∈ d.nbr_list,
      p.1 < d.num_atoms ∧ p.2 < d.num_atoms) ∧
    (((collate_dicts collateDicts0).2.nbr_list =
      (List.range collateDicts0.length).flatMap (fun k =>
        (collateDicts0.getD k default).nbr_list.map
          (shiftPair (spec_cum (collateDicts0.map (fun d => d.num_atoms)) k)))) ∧
    ((collate_dicts collateDicts0).2.angle_list =
      (List.range collateDicts0.length).flatMap (fun k =>
        (collateDicts0.getD k default).angle_list.map
          (shiftTriple (spec_cum (collateDicts0.map (fun d => d.num_atoms)) k)))) ∧
    ((collate_dicts collateDicts0).2.ji_idx =
      (List.range collateDicts0.length).flatMap (fun k =>
        (collateDicts0.getD k default).ji_idx.map
          (· + spec_cum (collateDicts0.map (fun d => d.nbr_list.length)) k))) ∧
    (∀ e ∈ (collate_dicts collateDicts0).2.nbr_list, ∃ k,
      k < collateDicts0.length ∧
      spec_cum (collateDicts0.map (fun d => d.num_atoms)) k ≤ e.1 ∧
      e.1 < spec_cum (collateDicts0.map (fun d => d.num_atoms)) k +
        (collateDicts0.getD k default).num_atoms ∧
      spec_cum (collateDicts0.map (fun d => d.num_atoms)) k ≤ e.2 ∧
      e.2 < spec_cum (collateDicts0.map (fun d => d.num_atoms)) k +
        (collateDicts0.getD k default).num_atoms ∧
      e.1 < (collateDicts0.map (fun d => d.num_atoms)).sum ∧
      e.2 < (collateDicts0.map (fun d => d.num_atoms)).sum)) :=
  ⟨by decide, c5_collate_reindex collateDicts0 (by decide)⟩

/-- The first `collate_dicts` pass leaves every system's atom count
unchanged. -/
theorem collate_map_num_atoms (dicts : List SysDict) :
    (collate_dicts dicts).1.map (fun d => d.num_atoms) =
      dicts.map (fun d => d.num_atoms) := by
  rw [collate_fst_eq]
  apply List.ext_getElem
  · simp
  · intro i h1 h2
    have hi : i < dicts.length := by simpa using h2
    simp only [List.getElem_map, List.getElem_range]
    rw [List.getD_eq_getElem dicts default hi]
    simp [reindex_nbr_keys, reindex_atom_keys]

/-- The first `collate_dicts` pass leaves every system's neighbor-list
length unchanged (shifting is index-wise). -/
theorem collate_map_nbr_len (dicts : List SysDict) :
    (collate_dicts dicts).1.map (fun d => d.nbr_list.length) =
      dicts.map (fun d => d.nbr_list.length) := by
  rw [collate_fst_eq]
  apply List.ext_getElem
  · simp
  · intro i h1 h2
    have hi : i < dicts.length := by simpa using h2
    simp only [List.getElem_map, List.getElem_range]
    rw [List.getD_eq_getElem dicts default hi]
    simp [reindex_nbr_keys, reindex_atom_keys]

/-- Entry `k` of the mutated dictionary list returned by
`collate_dicts`. -/
theorem collate_getD (dicts : List SysDict) (k : ℕ) (hk : k < dicts.length) :
    (collate_dicts dicts).1.getD k default =
      reindex_nbr_keys (((dicts.map (fun d => d.nbr_list.length)).take k).sum)
        (reindex_atom_keys (((dicts.map (fun d => d.num_atoms)).take k).sum)
          (dicts.getD k default)) := by
  rw [collate_fst_eq]
  rw [List.getD_eq_getElem _ default (by simpa using hk)]
  simp

/-!
## Claim C10 (collate mutates its input)
-/

/-- C10: `collate_dicts` rebinds the reindexable keys of each input
dictionary — after the call, dictionary `k` holds its `nbr_list`,
`angle_list` and `atoms_nbr_list` shifted by the cumulative atom count
and its `ji_idx`/`kj_idx` shifted by the cumulative neighbor-list
length, with all other keys (`num_atoms`, `nxyz`) unchanged; collating
the returned dictionaries a second time therefore shifts the entries
twice. -/
theorem c10_collate_mutates_input (dicts : List SysDict) (k : ℕ)
    (hk : k < dicts.length) :
    ((collate_dicts dicts).1.getD k default =
      { dicts.getD k default with
        nbr_list := (dicts.getD k default).nbr_list.map
          (shiftPair (spec_cum (dicts.map (fun d => d.num_atoms)) k)),
        angle_list := (dicts.getD k default).angle_list.map
          (shiftTriple (spec_cum (dicts.map (fun d => d.num_atoms)) k)),
        atoms_nbr_list := (dicts.getD k default).atoms_nbr_list.map
          (shiftPair (spec_cum (dicts.map (fun d => d.num_atoms)) k)),
        ji_idx := (dicts.getD k default).ji_idx.map
          (· + spec_cum (dicts.map (fun d => d.nbr_list.length)) k),
        kj_idx := (dicts.getD k default).kj_idx.map
          (· + spec_cum (dicts.map (fun d => d.nbr_list.length)) k) }) ∧
    (((collate_dicts ((collate_dicts dicts).1)).1.getD k default).nbr_list =
      (dicts.getD k default).nbr_list.map
        (shiftPair (2 * spec_cum (dicts.map (fun d => d.num_atoms)) k))) ∧
    (((collate_dicts ((collate_dicts dicts).1)).1.getD k default).ji_idx =
      (dicts.getD k default).ji_idx.map
        (· + 2 * spec_cum (dicts.map (fun d => d.nbr_list.length)) k)) := by
  have hle : k ≤ dicts.length := Nat.le_of_lt hk
  have hcA : spec_cum (dicts.map (fun d => d.num_atoms)) k =
      ((dicts.map (fun d => d.num_atoms)).take k).sum :=
    spec_cum_eq_take_sum _ k (by simpa using hle)
  have hcN : spec_cum (dicts.map (fun d => d.nbr_list.length)) k =
      ((dicts.map (fun d => d.nbr_list.length)).take k).sum :=
    spec_cum_eq_take_sum _ k (by simpa using hle)
  have hlen2 : k < ((collate_dicts dicts).1).length := by
    have := congrArg List.length (collate_map_num_atoms dicts)
    simpa using hk.trans_le (le_of_eq (by simpa using this.symm))
  refine ⟨?_, ?_, ?_⟩
  · rw [collate_getD dicts k hk, hcA, hcN]
    simp [reindex_nbr_keys, reindex_atom_keys]
  · rw [collate_getD _ k hlen2, collate_map_num_atoms, collate_map_nbr_len]
    rw [collate_getD dicts k hk]
    simp only [reindex_nbr_keys, reindex_atom_keys]
    rw [List.map_map, hcA]
    apply List.map_congr_left
    intro p hp
    simp only [Function.comp, shiftPair, Prod.mk.injEq]
    omega
  · rw [collate_getD _ k hlen2, collate_map_num_atoms, collate_map_nbr_len]
    rw [collate_getD dicts k hk]
    simp only [reindex_nbr_keys, reindex_atom_keys]
    rw [List.map_map, hcN]
    apply List.map_congr_left
    intro p hp
    simp only [Function.comp]
    omega

/-- Witness for C10 on the two-system batch at index 1. -/
theorem c10_collate_mutates_input_witness :
    (1 < collateDicts0.length) ∧
    (((collate_dicts collateDicts0).1.getD 1 default =
      { collateDicts0.getD 1 default with
        nbr_list := (collateDicts0.getD 1 default).nbr_list.map
          (shiftPair (spec_cum (collateDicts0.map (fun d => d.num_atoms)) 1)),
        angle_list := (collateDicts0.getD 1 default).angle_list.map
          (shiftTriple (spec_cum (collateDicts0.map (fun d => d.num_atoms)) 1)),
        atoms_nbr_list := (collateDicts0.getD 1 default).atoms_nbr_list.map
          (shiftPair (spec_cum (collateDicts0.map (fun d => d.num_atoms)) 1)),
        ji_idx := (collateDicts0.getD 1 default).ji_idx.map
          (· + spec_cum (collateDicts0.map (fun d => d.nbr_list.length)) 1),
        kj_idx := (collateDicts0.getD 1 default).kj_idx.map
          (· + spec_cum (collateDicts0.map (fun d => d.nbr_list.length)) 1) }) ∧
    (((collate_dicts ((collate_dicts collateDicts0).1)).1.getD 1
        default).nbr_list =
      (collateDicts0.getD 1 default).nbr_list.map
        (shiftPair (2 * spec_cum (collateDicts0.map (fun d => d.num_atoms)) 1))) ∧
    (((collate_dicts ((collate_dicts collateDicts0).1)).1.getD 1
        default).ji_idx =
      (collateDicts0.getD 1 default).ji_idx.map
        (· + 2 * spec_cum (collateDicts0.map (fun d => d.nbr_list.length)) 1))) :=
  ⟨by decide, c10_collate_mutates_input collateDicts0 1 (by decide)⟩

/-!
## Embedding of the angle index derivation (nff/data/graphs.py)

`m_idx_of_angles` builds, for every angle row, the mask
`(nbr_list[:, 0] == angle_list[:, angle_start]) *
 (nbr_list[:, 1] == angle_list[:, angle_end])` and collects the nonzero
column indices in row-major order; `add_ji_kj` calls it with
`(angle_start, angle_end) = (1, 0)` for `ji_idx` and `(2, 1)` for
`kj_idx`.
-/

/-- Column `t` of an angle record, the `angle_list[:, t]` of the
source. -/
def angleCol (t : ℕ) (a : ℕ × ℕ × ℕ) : ℕ :=
  if t = 0 then a.1 else if t = 1 then a.2.1 else a.2.2

/-- Embedding of `m_idx_of_angles` (graphs.py): for each angle record,
the indices of the neighbor-list rows equal to the selected column pair,
in row-major order. -/
def m_idx_of_angles (angle_list : List (ℕ × ℕ × ℕ))
    (nbr_list : List (ℕ × ℕ)) (angle_start angle_fin : ℕ) : List ℕ :=
  angle_list.flatMap (fun a =>
    (List.range nbr_list.length).filter (fun m =>
      decide ((nbr_list.getD m default).1 = angleCol angle_start a) &&
        decide ((nbr_list.getD m default).2 = angleCol angle_fin a)))

/-- Embedding of `add_ji_kj` (graphs.py): per geometry, `ji_idx` from
columns `(1, 0)` and `kj_idx` from columns `(2, 1)`. -/
def add_ji_kj (angle_lists : List (List (ℕ × ℕ × ℕ)))
    (nbr_lists : List (List (ℕ × ℕ))) : List (List ℕ) × List (List ℕ) :=
  (List.zipWith (fun a n => m_idx_of_angles a n 1 0) angle_lists nbr_lists,
   List.zipWith (fun a n => m_idx_of_angles a n 2 1) angle_lists nbr_lists)

/-- The single angle (0, 1, 2) over a directed neighbor list in which
the forward and reverse edges sit at different positions. -/
def c6Angles : List (ℕ × ℕ × ℕ) := [(0, 1, 2)]

/-- Neighbor list for the C6 counterexample. -/
def c6Nbrs : List (ℕ × ℕ) := [(0, 1), (1, 0), (1, 2), (2, 1)]

/-- C6 counterexample: the claim states that for an angle (a,b,c)
generated by the edges e = (a,b) and e' = (b,c), the edge stored at
`ji_idx[n]` is e itself and the edge at `kj_idx[n]` is e'.  For the
angle (0,1,2) over the list [(0,1),(1,0),(1,2),(2,1)], `add_ji_kj`
returns `ji_idx = [1]` and `kj_idx = [3]`: the stored edges are the
REVERSED bonds (1,0) = m_ji and (2,1) = m_kj, not (0,1) and (1,2). -/
theorem c6_counterexample :
    (add_ji_kj [c6Angles] [c6Nbrs]).1 = [[1]] ∧
    (add_ji_kj [c6Angles] [c6Nbrs]).2 = [[3]] ∧
    c6Nbrs.getD 1 default = (1, 0) ∧ c6Nbrs.getD 3 default = (2, 1) ∧
    ¬(c6Nbrs.getD 1 default = (0, 1)) ∧ ¬(c6Nbrs.getD 3 default = (1, 2)) :=
  ⟨by decide, by decide, by decide, by decide, by decide, by decide⟩

/-- Alignment of `m_idx_of_angles`: when every angle has exactly one
matching neighbor-list row, the output has one index per angle, and the
index at position `n` points at the row holding the selected column pair
of angle `n`. -/
theorem m_idx_aligned (angles : List (ℕ × ℕ × ℕ)) (nbrs : List (ℕ × ℕ))
    (s t : ℕ)
    (huniq : ∀ a ∈ angles, ((List.range nbrs.length).filter (fun m =>
      decide ((nbrs.getD m default).1 = angleCol s a) &&
        decide ((nbrs.getD m default).2 = angleCol t a))).length = 1) :
    (m_idx_of_angles angles nbrs s t).length = angles.length ∧
    ∀ n, n < angles.length →
      nbrs.getD ((m_idx_of_angles angles nbrs s t).getD n 0) default =
        (angleCol s (angles.getD n default),
         angleCol t (angles.getD n default)) := by
  induction angles with
  | nil => simp [m_idx_of_angles]
  | cons a as ih =>
      have ha := huniq a (by simp)
      obtain ⟨m0, hm0⟩ := List.length_eq_one.mp ha
      have hmem : m0 ∈ (List.range nbrs.length).filter (fun m =>
          decide ((nbrs.getD m default).1 = angleCol s a) &&
            decide ((nbrs.getD m default).2 = angleCol t a)) := by
        rw [hm0]; simp
      rw [List.mem_filter] at hmem
      have hp := hmem.2
      simp only [Bool.and_eq_true, decide_eq_true_eq] at hp
      have ihr := ih (fun b hb => huniq b (by simp [hb]))
      have hcons : m_idx_of_angles (a :: as) nbrs s t =
          m0 :: m_idx_of_angles as nbrs s t := by
        simp only [m_idx_of_angles, List.flatMap_cons, hm0]
        rfl
      constructor
      · rw [hcons]
        simp [ihr.1]
      · intro n hn
        rw [hcons]
        cases n with
        | zero =>
            simp only [List.getD_cons_zero]
            exact Prod.ext hp.1 hp.2
        | succ n =>
            simp only [List.getD_cons_succ]
            exact ihr.2 n (by simpa using hn)

/-- C6 (amended): for a directed neighbor list holding, for each angle
(a,b,c), exactly one row equal to (b,a) and exactly one row equal to
(c,b), the arrays returned by `add_ji_kj` have one entry per angle and
satisfy `edges[ji_idx[n]] = (b,a)` — the REVERSE of e = (a,b) — and
`edges[kj_idx[n]] = (c,b)` — the REVERSE of e' = (b,c): the gathered
rows are the message bonds m_ji and m_kj, still the two bonds forming
the angle but in reversed orientation, not e and e' themselves. -/
theorem c6_ji_kj_reversed (angles : List (ℕ × ℕ × ℕ))
    (nbrs : List (ℕ × ℕ))
    (hji : ∀ a ∈ angles, ((List.range nbrs.length).filter (fun m =>
      decide ((nbrs.getD m default).1 = a.2.1) &&
        decide ((nbrs.getD m default).2 = a.1))).length = 1)
    (hkj : ∀ a ∈ angles, ((List.range nbrs.length).filter (fun m =>
      decide ((nbrs.getD m default).1 = a.2.2) &&
        decide ((nbrs.getD m default).2 = a.2.1))).length = 1) :
    ((add_ji_kj [angles] [nbrs]).1.headD []).length = angles.length ∧
    ((add_ji_kj [angles] [nbrs]).2.headD []).length = angles.length ∧
    ∀ n, n < angles.length →
      nbrs.getD (((add_ji_kj [angles] [nbrs]).1.headD []).getD n 0) default =
        ((angles.getD n default).2.1, (angles.getD n default).1) ∧
      nbrs.getD (((add_ji_kj [angles] [nbrs]).2.headD []).getD n 0) default =
        ((angles.getD n default).2.2, (angles.getD n default).2.1) := by
  have hj := m_idx_aligned angles nbrs 1 0 hji
  have hk := m_idx_aligned angles nbrs 2 1 hkj
  refine ⟨hj.1, hk.1, fun n hn => ⟨hj.2 n hn, hk.2 n hn⟩⟩

/-- The docstring example of `m_idx_of_angles`: angles (0,1,2) and
(0,1,3) over the full directed list on four atoms. -/
def c6WAngles : List (ℕ × ℕ × ℕ) := [(0, 1, 2), (0, 1, 3)]

/-- The full directed neighbor list on four atoms, in the order of the
source docstring. -/
def c6WNbrs : List (ℕ × ℕ) :=
  [(0, 1), (0, 2), (0, 3), (1, 0), (1, 2), (1, 3),
   (2, 0), (2, 1), (2, 3), (3, 0), (3, 1), (3, 2)]

/-- Witness for the amended C6 theorem on the docstring example. -/
theorem c6_ji_kj_reversed_witness :
    ((∀ a ∈ c6WAngles, ((List.range c6WNbrs.length).filter (fun m =>
      decide ((c6WNbrs.getD m default).1 = a.2.1) &&
        decide ((c6WNbrs.getD m default).2 = a.1))).length = 1) ∧
     (∀ a ∈ c6WAngles, ((List.range c6WNbrs.length).filter (fun m =>
      decide ((c6WNbrs.getD m default).1 = a.2.2) &&
        decide ((c6WNbrs.getD m default).2 = a.2.1))).length = 1)) ∧
    (((add_ji_kj [c6WAngles] [c6WNbrs]).1.headD []).length =
      c6WAngles.length ∧
     ((add_ji_kj [c6WAngles] [c6WNbrs]).2.headD []).length =
      c6WAngles.length ∧
     ∀ n, n < c6WAngles.length →
      c6WNbrs.getD (((add_ji_kj [c6WAngles] [c6WNbrs]).1.headD []).getD n 0)
          default =
        ((c6WAngles.getD n default).2.1, (c6WAngles.getD n default).1) ∧
      c6WNbrs.getD (((add_ji_kj [c6WAngles] [c6WNbrs]).2.headD []).getD n 0)
          default =
        ((c6WAngles.getD n default).2.2, (c6WAngles.getD n default).2.1)) :=
  ⟨⟨by decide, by decide⟩,
   c6_ji_kj_reversed c6WAngles c6WNbrs (by decide) (by decide)⟩

/-!
## Embedding of `hess_from_pad` (nff/nn/tensorgrad.py)

The padded per-system Hessians `pad_hess` (one matrix per system, as
produced by `compute_jacobian` of the gradient with respect to the
padded stacked coordinate tensor) are sliced per system to the leading
`n*3` rows and columns, where `n` is the system's real atom count.
-/

/-- Embedding of `hess_from_pad` (tensorgrad.py):
`for n, pad in zip(N, pad_hess): hess = pad[:n*3, :n*3]`. -/
def hess_from_pad (pad_hess : List (List (List ℚ))) (N : List ℕ) :
    List (List (List ℚ)) :=
  (List.zip N pad_hess).map (fun p =>
    (p.2.take (p.1 * 3)).map (fun row => row.take (p.1 * 3)))

/-- A take below the cut leaves an entry unchanged. -/
theorem getD_take_of_lt {α : Type} (l : List α) (n i : ℕ) (d : α)
    (h : i < n) : (l.take n).getD i d = l.getD i d := by
  simp [List.getD_eq_getElem?_getD, List.getElem?_take, h]

/-- Row `i` of a square truncation is the truncated row `i`, for `i`
below the cut. -/
theorem take_map_take_getD (l : List (List ℚ)) (n i : ℕ) (h : i < n) :
    ((l.take n).map (fun r => r.take n)).getD i [] = (l.getD i []).take n := by
  rcases Nat.lt_or_ge i l.length with hlt | hge
  · have h1 : i < ((l.take n).map (fun r => r.take n)).length := by
      rw [List.length_map, List.length_take]
      omega
    rw [List.getD_eq_getElem _ _ h1, List.getElem_map, List.getElem_take,
      List.getD_eq_getElem _ _ hlt]
  · rw [List.getD_eq_default _ _ (by rw [List.length_map, List.length_take]; omega),
      List.getD_eq_default _ _ hge]
    simp

/-- Entry `k` of `hess_from_pad` is the `k`-th padded Hessian with rows
and columns truncated at `N[k] * 3`. -/
theorem hess_from_pad_getD (pad_hess : List (List (List ℚ))) (N : List ℕ)
    (k : ℕ) (hk : k < N.length) (hk2 : k < pad_hess.length) :
    (hess_from_pad pad_hess N).getD k [] =
      ((pad_hess.getD k []).take (N.getD k 0 * 3)).map
        (fun row => row.take (N.getD k 0 * 3)) := by
  have hkz : k < (List.zip N pad_hess).length := by
    simp [List.length_zip]
    omega
  rw [hess_from_pad, List.getD_eq_getElem _ _ (by simpa using hkz)]
  rw [List.getD_eq_getElem N 0 hk, List.getD_eq_getElem pad_hess [] hk2]
  simp

/-!
## Claim C7 (padded batched Hessians)
-/

/-- C7: the per-system Hessian returned by `hess_from_pad` for system
`k` is exactly the leading `(3*n_k) x (3*n_k)` sub-block of that
system's Hessian with respect to the padded stacked coordinate tensor:
inside the real coordinate range every entry coincides with the padded
Hessian, the returned block has exactly `3*n_k` rows whenever the padded
block is at least that tall, and row `i` has exactly `3*n_k` columns
whenever the padded row is at least that wide — so no padding row or
column is included. -/
theorem c7_hess_from_pad_slices (pad_hess : List (List (List ℚ)))
    (N : List ℕ) (k i j : ℕ) (hk : k < N.length) (hk2 : k < pad_hess.length)
    (hi : i < N.getD k 0 * 3) (hj : j < N.getD k 0 * 3) :
    ((((hess_from_pad pad_hess N).getD k []).getD i []).getD j 0 =
      (((pad_hess.getD k []).getD i []).getD j 0)) ∧
    (N.getD k 0 * 3 ≤ (pad_hess.getD k []).length →
      ((hess_from_pad pad_hess N).getD k []).length = N.getD k 0 * 3) ∧
    (N.getD k 0 * 3 ≤ ((pad_hess.getD k []).getD i []).length →
      (((hess_from_pad pad_hess N).getD k []).getD i []).length =
        N.getD k 0 * 3) := by
  rw [hess_from_pad_getD pad_hess N k hk hk2]
  refine ⟨?_, ?_, ?_⟩
  · rw [take_map_take_getD _ _ _ hi, getD_take_of_lt _ _ _ _ hj]
  · intro hwide
    rw [List.length_map, List.length_take]
    omega
  · intro hwide
    rw [take_map_take_getD _ _ _ hi, List.length_take]
    omega

/-- A concrete 2-system padded Hessian batch: system 0 has one real atom
(3 real coordinates) padded to 6, system 1 has two real atoms. -/
def c7PadHess : List (List (List ℚ)) :=
  [(List.range 6).map (fun i => (List.range 6).map
      (fun j => ((i * 10 + j : ℕ) : ℚ))),
   (List.range 6).map (fun i => (List.range 6).map
      (fun j => ((100 + i * 10 + j : ℕ) : ℚ)))]

/-- Witness for C7 at system 0, entry (2, 1) of a one-atom block. -/
theorem c7_hess_from_pad_slices_witness :
    (0 < [1, 2].length ∧ 0 < c7PadHess.length ∧
      2 < [1, 2].getD 0 0 * 3 ∧ 1 < [1, 2].getD 0 0 * 3) ∧
    (((((hess_from_pad c7PadHess [1, 2]).getD 0 []).getD 2 []).getD 1 0 =
      ((c7PadHess.getD 0 []).getD 2 []).getD 1 0) ∧
    ([1, 2].getD 0 0 * 3 ≤ (c7PadHess.getD 0 []).length →
      ((hess_from_pad c7PadHess [1, 2]).getD 0 []).length =
        [1, 2].getD 0 0 * 3) ∧
    ([1, 2].getD 0 0 * 3 ≤ ((c7PadHess.getD 0 []).getD 2 []).length →
      (((hess_from_pad c7PadHess [1, 2]).getD 0 []).getD 2 []).length =
        [1, 2].getD 0 0 * 3)) :=
  ⟨⟨by decide, by decide, by decide, by decide⟩,
   c7_hess_from_pad_slices c7PadHess [1, 2] 0 2 1 (by decide) (by decide)
     (by decide) (by decide)⟩

/-!
## Claim C9 (the `requires_large_offsets` keyword)

`AtomsBatch.update_nbr_list` (nff/io/ase.py) calls
`torch_nbr_list(atoms, cutoff + skin, device=..., directed=...,
requires_large_offsets=...)`, while the signature of `torch_nbr_list`
(nn/utils.py) is `(atomsobject, cutoff, device, directed)` with no
`**kwargs`.  Python binds call arguments to parameters before executing
the callee and raises TypeError on any unexpected keyword; the binding
rule is embedded explicitly.
-/

/-- The parameter names of `torch_nbr_list`, from its signature in
nn/utils.py. -/
def torch_nbr_list_params : List String :=
  ["atomsobject", "cutoff", "device", "directed"]

/-- The keyword arguments passed at the `torch_nbr_list` call site
inside `AtomsBatch.update_nbr_list` (two arguments are passed
positionally). -/
def update_nbr_list_call_keywords : List String :=
  ["device", "directed", "requires_large_offsets"]

/-- Embedding of the Python call-binding rule for a function without
`**kwargs`: the positional arguments must fit and every keyword must
name a parameter, otherwise the call raises TypeError before the callee
body runs. -/
def python_call_binds (params : List String) (nPositional : ℕ)
    (keywords : List String) : Except String Unit :=
  if nPositional ≤ params.length ∧
      keywords.all (fun k => params.contains k) then Except.ok ()
  else Except.error "TypeError"

/-- Embedding of `AtomsBatch.update_nbr_list`: one `torch_nbr_list` call
per molecule of the batch; the first failing call aborts. -/
def update_nbr_list (numMols : ℕ) : Except String Unit :=
  ((List.range numMols).mapM (fun _ =>
    python_call_binds torch_nbr_list_params 2
      update_nbr_list_call_keywords)).map (fun _ => ())

/-- Embedding of `AtomsBatch.get_batch`: when no neighbor list and
offsets are cached it first calls `update_nbr_list`. -/
def get_batch (cached : Bool) (numMols : ℕ) : Except String Unit :=
  if cached then Except.ok () else update_nbr_list numMols

/-- C9: `update_nbr_list` passes the keyword `requires_large_offsets`,
which is not among the parameters of `torch_nbr_list`, so for every
batch with at least one molecule the call raises TypeError before any
neighbor list is produced, and so does `get_batch` when nothing is
cached. -/
theorem c9_requires_large_offsets_type_error (numMols : ℕ)
    (h : 0 < numMols) :
    ("requires_large_offsets" ∈ update_nbr_list_call_keywords) ∧
    ("requires_large_offsets" ∉ torch_nbr_list_params) ∧
    update_nbr_list numMols = Except.error "TypeError" ∧
    get_batch false numMols = Except.error "TypeError" := by
  have hcall : python_call_binds torch_nbr_list_params 2
      update_nbr_list_call_keywords = Except.error "TypeError" := by rfl
  have hupd : update_nbr_list numMols = Except.error "TypeError" := by
    obtain ⟨m, rfl⟩ := Nat.exists_eq_succ_of_ne_zero (Nat.pos_iff_ne_zero.mp h)
    simp [update_nbr_list, List.range_succ_eq_map, List.mapM, List.mapM.loop,
      hcall, Except.map, Bind.bind, Except.bind]
  exact ⟨by decide, by decide, hupd, hupd⟩

/-- Witness for C9 with a single molecule. -/
theorem c9_requires_large_offsets_type_error_witness :
    (0 < 1) ∧
    (("requires_large_offsets" ∈ update_nbr_list_call_keywords) ∧
     ("requires_large_offsets" ∉ torch_nbr_list_params) ∧
     update_nbr_list 1 = Except.error "TypeError" ∧
     get_batch false 1 = Except.error "TypeError") :=
  ⟨by decide, c9_requires_large_offsets_type_error 1 (by decide)⟩

end NFF
